import Mathlib

/-!
Verification of the order-batching solver (`batch_optimization.py`).

The Python core is shallowly embedded:
* Order ids and aisle ids are `Nat` (the Python code only compares them for
  equality and uses them as dictionary keys).
* Python sets of aisles are modelled as duplicate-free `List Nat` values
  (built with `List.dedup`); every use in the source depends only on
  membership and cardinality, so the iteration order chosen by `dedup` is an
  inessential determinization of CPython's hash order.
* The Gurobi engine is modelled exactly where its contract matters: the
  single-batch model (`MIP_single_batch`) is an exact optimizer over an
  explicitly enumerated feasible set, and the full model (`MIP`) is
  parametrized by an arbitrary engine response constrained by the translated
  constraint system.
* `random.choice` is modelled by a universally quantified stream of numbers.
* Python runtime faults that the embedded code can actually reach
  (`NameError` from the free global `solver` in `Solver.MIP`, `IndexError`
  from indexing an empty pool) are modelled with `Except`.
-/

/-- Runtime faults of the embedded Python code. -/
inductive PyError where
  | nameError : PyError
  | indexError : PyError
  | gurobiInfeasible : PyError
deriving DecidableEq, Repr

/-- One item record of an order; the core only ever reads its `aisle` field
(`p['aisle']` in `Solver.__init__`), the other fields of the record are dead
for the core. -/
structure Item where
  aisle : Nat
deriving DecidableEq, Repr

/-- State of a `Solver` instance as laid down by `Solver.__init__`:
`order_ids`, `order_aisles`, `aisles`, `aisles_orders`, `K`, `B`. -/
structure Solver where
  order_ids : List Nat
  order_aisles : Nat → List Nat
  aisles : List Nat
  aisles_orders : Nat → List Nat
  K : Nat
  B : Nat

/-- Number of distinct elements of a list: models `len(set(xs))` for a Python
list `xs`, and `len(s)` for a set modelled as a duplicate-free list. -/
def countDistinct (l : List Nat) : Nat :=
  l.dedup.length

/-- Translation of `Solver.__init__(orderlist, max_batch_size)`.  The Python
`orderlist` dict is passed as an association list (its keys in insertion
order); `self.order_aisles[o] = set(p['aisle'] for p in orderlist[o])` becomes
a deduplicated list, `self.aisles = list(set(...))` a deduplicated flatten,
`self.aisles_orders[a]` the filter of `order_ids` by membership of `a`, and
`self.B = math.ceil(len(order_ids)/K)` the usual natural-number ceiling
division. -/
def mkSolver (orderlist : List (Nat × List Item)) (max_batch_size : Nat) : Solver :=
  let order_ids := orderlist.map Prod.fst
  let order_aisles := fun o =>
    match orderlist.lookup o with
    | some ps => (ps.map Item.aisle).dedup
    | none => []
  let aisles := (order_ids.flatMap order_aisles).dedup
  { order_ids := order_ids
    order_aisles := order_aisles
    aisles := aisles
    aisles_orders := fun a => order_ids.filter (fun o => a ∈ order_aisles o)
    K := max_batch_size
    B := (order_ids.length + max_batch_size - 1) / max_batch_size }

/-- Translation of `Solver.num_aisles(o)`: `len(self.order_aisles[o])`. -/
def Solver.num_aisles (s : Solver) (o : Nat) : Nat :=
  (s.order_aisles o).length

/-- Translation of `Solver.check_num_aisles(batches)`: for every batch it
collects `self.order_aisles[o]` for each member order into one list (`for o in
b: for a in self.order_aisles[o]: aisles.append(a)`), takes `len(set(aisles))`
and sums the per-batch numbers.  The `print` in the source is a side effect
the value does not depend on. -/
def Solver.check_num_aisles (s : Solver) (batches : List (List Nat)) : Nat :=
  (batches.map (fun b => countDistinct (b.flatMap s.order_aisles))).sum

/-- Spec-side evaluator, following the spec's words for the Evaluator: for
each batch, union the aisle sets of its member orders and take the set's
size; return the sum over batches. -/
def evaluatorSpec (s : Solver) (batches : List (List Nat)) : Nat :=
  (batches.map
    (fun b => (b.foldr (fun o acc => (s.order_aisles o).toFinset ∪ acc) ∅).card)).sum

lemma toFinset_flatMap_eq_foldr (s : Solver) (b : List Nat) :
    (b.flatMap s.order_aisles).toFinset
      = b.foldr (fun o acc => (s.order_aisles o).toFinset ∪ acc) ∅ := by
  induction b with
  | nil => simp
  | cons o rest ih =>
      simp [List.flatMap_cons, List.toFinset_append, ih]

lemma countDistinct_eq_card_toFinset (l : List Nat) :
    countDistinct l = l.toFinset.card := by
  simp [countDistinct, List.card_toFinset]

/-- Comparison of a number against the running best count, where `none`
models the initial `best_order_num = math.inf`. -/
def ltInf (n : Nat) : Option Nat → Bool
  | none => true
  | some m => n < m

/-- Translation of `len(self.order_aisles[o] - batch_aisles)` inside
`Solver.greedy_batches`: the number of aisles of order `o` not already in the
accumulated batch aisle set. -/
def Solver.numNewAisles (s : Solver) (batchAisles : List Nat) (o : Nat) : Nat :=
  ((s.order_aisles o).filter (fun a => a ∉ batchAisles)).length

/-- Inner scan of `Solver.greedy_batches`: iterate over the remaining pool
carrying `best_order`, `best_order_aisles`, `best_order_num` (with `none` for
`math.inf`); an order strictly improving the best count replaces it, and a
new-aisle count of `0` breaks out of the loop at once. -/
def scanGo (s : Solver) (batchAisles : List Nat) :
    List Nat → Option Nat → List Nat → Option Nat → Option Nat × List Nat
  | [], best, bestAisles, _ => (best, bestAisles)
  | o :: rest, best, bestAisles, bestNum =>
    let num := s.numNewAisles batchAisles o
    let st :=
      if ltInf num bestNum then (some o, s.order_aisles o, some num)
      else (best, bestAisles, bestNum)
    if num = 0 then (st.1, st.2.1)
    else scanGo s batchAisles rest st.1 st.2.1 st.2.2

/-- One full scan of the pool, started from the source's initial state
`best_order = None`, `best_order_aisles = set()`, `best_order_num = inf`. -/
def scanBest (s : Solver) (batchAisles : List Nat) (pool : List Nat) :
    Option Nat × List Nat :=
  scanGo s batchAisles pool none [] none

/-- Spec-side selection rule: the first order in scan order whose number of
new aisles is minimal over the remaining pool. -/
def firstMinNewAisles (s : Solver) (batchAisles : List Nat) (pool : List Nat) :
    Option Nat :=
  match (pool.map (s.numNewAisles batchAisles)).min? with
  | none => none
  | some m => pool.find? (fun o => s.numNewAisles batchAisles o == m)

/-- While-loop of `Solver.greedy_batches` filling one batch: while
`len(batch) < min(K, len(batch) + len(order_ids))`, pick the scan winner,
append it to the batch, union its aisles into `batch_aisles` and remove it
from the pool.  The loop runs at most `K` times from an empty batch, so fuel
`K` is exact; the `(none, _)` branch is unreachable because the loop guard
forces a non-empty pool. -/
def greedyFill (s : Solver) :
    Nat → List Nat → List Nat → List Nat → List Nat × List Nat
  | 0, batch, pool, _ => (batch, pool)
  | fuel + 1, batch, pool, batchAisles =>
    if batch.length < min s.K (batch.length + pool.length) then
      match scanBest s batchAisles pool with
      | (some best, bestAisles) =>
          greedyFill s fuel (batch ++ [best]) (pool.erase best)
            ((batchAisles ++ bestAisles).dedup)
      | (none, _) => (batch, pool)
    else (batch, pool)

/-- Outer loop of `Solver.greedy_batches` over the `B` batches.  Indexing
`order_ids[0]` on an empty pool is an `IndexError`; the source initializes
`batch_aisles` from the pool head and performs the no-op
`batch.append(order_ids[0]); batch.remove(order_ids[0])` before the fill
loop. -/
def greedyOuter (s : Solver) : Nat → List Nat → Except PyError (List (List Nat))
  | 0, _ => .ok []
  | m + 1, pool =>
    match pool with
    | [] => .error .indexError
    | o0 :: _ =>
      let batchAisles := s.order_aisles o0
      let batch0 : List Nat := [o0].erase o0
      let fp := greedyFill s s.K batch0 pool batchAisles
      match greedyOuter s m fp.2 with
      | .ok rest => .ok (fp.1 :: rest)
      | .error e => .error e

/-- Translation of `Solver.greedy_batches`: copy `order_ids`, stable-sort it
descending by `num_aisles`, then peel `B` batches.  Python
`sort(reverse=True, key=...)` is stable descending, and any stable sort for
the same key yields the same list, so the structurally recursive
`List.insertionSort` with the non-strict descending relation is an exact
model of it. -/
def Solver.greedy_batches (s : Solver) : Except PyError (List (List Nat)) :=
  let order_ids :=
    s.order_ids.insertionSort (fun a b => s.num_aisles b ≤ s.num_aisles a)
  greedyOuter s s.B order_ids

lemma scanGo_split (s : Solver) (ba : List Nat) :
    ∀ (rest : List Nat) (bo : Nat), 0 < s.numNewAisles ba bo →
    ∃ o l₁ l₂,
      scanGo s ba rest (some bo) (s.order_aisles bo) (some (s.numNewAisles ba bo))
          = (some o, s.order_aisles o)
        ∧ bo :: rest = l₁ ++ o :: l₂
        ∧ (∀ o' ∈ l₁, s.numNewAisles ba o < s.numNewAisles ba o')
        ∧ (∀ o' ∈ bo :: rest, s.numNewAisles ba o ≤ s.numNewAisles ba o') := by
  intro rest
  induction rest with
  | nil =>
      intro bo hbo
      refine ⟨bo, [], [], by simp [scanGo], by simp, by simp, ?_⟩
      intro o' ho'
      simp only [List.mem_singleton] at ho'
      rw [ho']
  | cons o rest' ih =>
      intro bo hbo
      by_cases hlt : s.numNewAisles ba o < s.numNewAisles ba bo
      · by_cases h0 : s.numNewAisles ba o = 0
        · refine ⟨o, [bo], rest', ?_, rfl, ?_, ?_⟩
          · simp [scanGo, ltInf, hlt, h0, hbo]
          · intro o' ho'
            simp only [List.mem_singleton] at ho'
            rw [ho']; omega
          · intro o' _; omega
        · obtain ⟨ow, l₁, l₂, heq, hsplit, hstrict, hmin⟩ :=
            ih o (Nat.pos_of_ne_zero h0)
          have how : s.numNewAisles ba ow ≤ s.numNewAisles ba o :=
            hmin o (List.mem_cons_self _ _)
          refine ⟨ow, bo :: l₁, l₂, ?_, ?_, ?_, ?_⟩
          · simpa [scanGo, ltInf, hlt, h0] using heq
          · rw [List.cons_append, ← hsplit]
          · intro o' ho'
            rcases List.mem_cons.mp ho' with h | h
            · rw [h]; omega
            · exact hstrict o' h
          · intro o' ho'
            rcases List.mem_cons.mp ho' with h | h
            · rw [h]; omega
            · exact hmin o' h
      · have hge : s.numNewAisles ba bo ≤ s.numNewAisles ba o := Nat.le_of_not_lt hlt
        by_cases h0 : s.numNewAisles ba o = 0
        · omega
        · obtain ⟨ow, l₁, l₂, heq, hsplit, hstrict, hmin⟩ := ih bo hbo
          cases l₁ with
          | nil =>
              simp only [List.nil_append, List.cons.injEq] at hsplit
              obtain ⟨hbo_eq, hl₂⟩ := hsplit
              refine ⟨ow, [], o :: l₂, ?_, ?_, by simp, ?_⟩
              · simpa [scanGo, ltInf, hlt, h0] using heq
              · rw [List.nil_append, ← hbo_eq, ← hl₂]
              · intro o' ho'
                rcases List.mem_cons.mp ho' with h | h
                · rw [h]; exact hmin bo (List.mem_cons_self _ _)
                · rcases List.mem_cons.mp h with h' | h'
                  · rw [h']
                    exact le_trans (hmin bo (List.mem_cons_self _ _)) hge
                  · exact hmin o' (List.mem_cons_of_mem _ h')
          | cons b1 l₁' =>
              simp only [List.cons_append, List.cons.injEq] at hsplit
              obtain ⟨hb1, hrest⟩ := hsplit
              have how_bo : s.numNewAisles ba ow < s.numNewAisles ba bo := by
                rw [hb1]; exact hstrict b1 (List.mem_cons_self _ _)
              refine ⟨ow, bo :: o :: l₁', l₂, ?_, ?_, ?_, ?_⟩
              · simpa [scanGo, ltInf, hlt, h0] using heq
              · rw [List.cons_append, List.cons_append, ← hrest]
              · intro o' ho'
                rcases List.mem_cons.mp ho' with h | h
                · rw [h]; exact how_bo
                · rcases List.mem_cons.mp h with h' | h'
                  · rw [h']; omega
                  · exact hstrict o' (List.mem_cons_of_mem _ h')
              · intro o' ho'
                rcases List.mem_cons.mp ho' with h | h
                · rw [h]; exact le_of_lt how_bo
                · rcases List.mem_cons.mp h with h' | h'
                  · rw [h']; omega
                  · exact hmin o' (List.mem_cons_of_mem _ h')

lemma scanBest_split (s : Solver) (ba : List Nat) (pool : List Nat)
    (hp : pool ≠ []) :
    ∃ o l₁ l₂,
      scanBest s ba pool = (some o, s.order_aisles o)
        ∧ pool = l₁ ++ o :: l₂
        ∧ (∀ o' ∈ l₁, s.numNewAisles ba o < s.numNewAisles ba o')
        ∧ (∀ o' ∈ pool, s.numNewAisles ba o ≤ s.numNewAisles ba o') := by
  match pool with
  | [] => exact absurd rfl hp
  | o0 :: rest =>
      by_cases h0 : s.numNewAisles ba o0 = 0
      · refine ⟨o0, [], rest, ?_, rfl, by simp, ?_⟩
        · simp [scanBest, scanGo, ltInf, h0]
        · intro o' _; omega
      · obtain ⟨o, l₁, l₂, heq, hsplit, hstrict, hmin⟩ :=
          scanGo_split s ba rest o0 (Nat.pos_of_ne_zero h0)
        exact ⟨o, l₁, l₂, by simpa [scanBest, scanGo, ltInf, h0] using heq,
          hsplit, hstrict, hmin⟩

lemma scanBest_mem (s : Solver) (ba : List Nat) (pool : List Nat) (o : Nat)
    (h : (scanBest s ba pool).1 = some o) : o ∈ pool := by
  cases pool with
  | nil => simp [scanBest, scanGo] at h
  | cons o0 rest =>
      obtain ⟨ow, l₁, l₂, heq, hsplit, _, _⟩ :=
        scanBest_split s ba (o0 :: rest) (by simp)
      rw [heq] at h
      simp only [Option.some.injEq] at h
      rw [← h, hsplit]
      exact List.mem_append_right _ (List.mem_cons_self _ _)

lemma split_firstMin (s : Solver) (ba : List Nat) (pool l₁ l₂ : List Nat)
    (o : Nat) (hsplit : pool = l₁ ++ o :: l₂)
    (hstrict : ∀ o' ∈ l₁, s.numNewAisles ba o < s.numNewAisles ba o')
    (hmin : ∀ o' ∈ pool, s.numNewAisles ba o ≤ s.numNewAisles ba o') :
    firstMinNewAisles s ba pool = some o := by
  have homem : o ∈ pool := by
    rw [hsplit]; exact List.mem_append_right _ (List.mem_cons_self _ _)
  have hmin? : (pool.map (s.numNewAisles ba)).min? = some (s.numNewAisles ba o) := by
    rw [List.min?_eq_some_iff']
    constructor
    · exact List.mem_map_of_mem _ homem
    · intro b hb
      obtain ⟨o', ho', rfl⟩ := List.mem_map.mp hb
      exact hmin o' ho'
  have hfm : firstMinNewAisles s ba pool
      = pool.find? (fun o' => s.numNewAisles ba o' == s.numNewAisles ba o) := by
    unfold firstMinNewAisles
    rw [hmin?]
  rw [hfm, hsplit, List.find?_append]
  have h₁ : (l₁.find? fun o' => s.numNewAisles ba o' == s.numNewAisles ba o) = none := by
    rw [List.find?_eq_none]
    intro x hx
    simp only [beq_iff_eq]
    exact Nat.ne_of_gt (hstrict x hx)
  rw [h₁, Option.none_or, List.find?_cons]
  simp

lemma scanBest_eq_firstMin (s : Solver) (ba : List Nat) (pool : List Nat)
    (hp : pool ≠ []) :
    ∃ o, scanBest s ba pool = (some o, s.order_aisles o)
      ∧ firstMinNewAisles s ba pool = some o := by
  obtain ⟨o, l₁, l₂, heq, hsplit, hstrict, hmin⟩ := scanBest_split s ba pool hp
  exact ⟨o, heq, split_firstMin s ba pool l₁ l₂ o hsplit hstrict hmin⟩

lemma scanGo_break_tail (s : Solver) (ba : List Nat) :
    ∀ (l₁ : List Nat) (o : Nat), s.numNewAisles ba o = 0 →
    ∀ (l₂ l₂' : List Nat) (best : Option Nat) (bA : List Nat) (bN : Option Nat),
      scanGo s ba (l₁ ++ o :: l₂) best bA bN
        = scanGo s ba (l₁ ++ o :: l₂') best bA bN := by
  intro l₁
  induction l₁ with
  | nil =>
      intro o h0 l₂ l₂' best bA bN
      simp [scanGo, h0]
  | cons a l₁' ih =>
      intro o h0 l₂ l₂' best bA bN
      by_cases ha : s.numNewAisles ba a = 0
      · simp [scanGo, ha]
      · simp only [List.cons_append, scanGo, ha, if_false]
        exact ih o h0 l₂ l₂' _ _ _

lemma scanBest_break_tail (s : Solver) (ba : List Nat) (l₁ l₂ l₂' : List Nat)
    (o : Nat) (h0 : s.numNewAisles ba o = 0) :
    scanBest s ba (l₁ ++ o :: l₂) = scanBest s ba (l₁ ++ o :: l₂') :=
  scanGo_break_tail s ba l₁ o h0 l₂ l₂' none [] none

lemma le_ceil_mul (n k : Nat) (hk : 1 ≤ k) : n ≤ ((n + k - 1) / k) * k := by
  have h1 := Nat.div_add_mod (n + k - 1) k
  have h2 : (n + k - 1) % k < k := Nat.mod_lt _ (by omega)
  have h3 : k * ((n + k - 1) / k) = ((n + k - 1) / k) * k := Nat.mul_comm _ _
  omega

lemma ceil_mul_lt (n k b : Nat) (hk : 1 ≤ k) (hb : b < (n + k - 1) / k) :
    b * k < n := by
  have h1 : ((n + k - 1) / k) * k ≤ n + k - 1 := Nat.div_mul_le_self _ _
  have h2 : (b + 1) * k ≤ ((n + k - 1) / k) * k := Nat.mul_le_mul_right _ hb
  have h3 : (b + 1) * k = b * k + k := by ring
  omega

lemma greedyFill_spec (s : Solver) :
    ∀ (fuel : Nat) (batch pool ba : List Nat),
      min s.K (batch.length + pool.length) - batch.length ≤ fuel →
      (greedyFill s fuel batch pool ba).1.length
          = max batch.length (min s.K (batch.length + pool.length))
        ∧ ((greedyFill s fuel batch pool ba).1 ++ (greedyFill s fuel batch pool ba).2).Perm
            (batch ++ pool) := by
  intro fuel
  induction fuel with
  | zero =>
      intro batch pool ba hfuel
      constructor
      · simp only [greedyFill]
        omega
      · simp [greedyFill]
  | succ fuel ih =>
      intro batch pool ba hfuel
      by_cases hcond : batch.length < min s.K (batch.length + pool.length)
      · have hpool : pool ≠ [] := by
          intro hnil
          rw [hnil] at hcond
          simp only [List.length_nil, Nat.add_zero] at hcond
          omega
        obtain ⟨best, heq, _⟩ := scanBest_eq_firstMin s ba pool hpool
        have hmem : best ∈ pool := scanBest_mem s ba pool best (by rw [heq])
        have hlen_erase : (pool.erase best).length = pool.length - 1 :=
          List.length_erase_of_mem hmem
        have hlen_pos : 0 < pool.length := List.length_pos.mpr hpool
        have hsum : (batch ++ [best]).length + (pool.erase best).length
            = batch.length + pool.length := by
          simp [hlen_erase]
          omega
        have hfuel' : min s.K ((batch ++ [best]).length + (pool.erase best).length)
            - (batch ++ [best]).length ≤ fuel := by
          rw [hsum]
          simp only [List.length_append, List.length_singleton]
          omega
        obtain ⟨ihlen, ihperm⟩ := ih (batch ++ [best]) (pool.erase best)
          ((ba ++ s.order_aisles best).dedup) hfuel'
        have hstep : greedyFill s (fuel + 1) batch pool ba
            = greedyFill s fuel (batch ++ [best]) (pool.erase best)
              ((ba ++ s.order_aisles best).dedup) := by
          simp only [greedyFill, if_pos hcond, heq]
        constructor
        · rw [hstep, ihlen, hsum]
          simp only [List.length_append, List.length_singleton]
          omega
        · rw [hstep]
          refine ihperm.trans ?_
          have hperm1 : (batch ++ [best]) ++ pool.erase best
              = batch ++ ([best] ++ pool.erase best) := by
            simp [List.append_assoc]
          rw [hperm1]
          refine List.Perm.append_left batch ?_
          exact (List.perm_cons_erase hmem).symm
      · constructor
        · simp only [greedyFill, if_neg hcond]
          omega
        · simp only [greedyFill, if_neg hcond]
          exact List.Perm.refl _

lemma greedyOuter_spec (s : Solver) (hK : 1 ≤ s.K) :
    ∀ (m : Nat) (pool : List Nat),
      (∀ j, j < m → j * s.K < pool.length) →
      ∃ bs rest,
        greedyOuter s m pool = .ok bs
          ∧ bs.length = m
          ∧ (∀ j, j < m → (bs.getD j []).length = min s.K (pool.length - j * s.K))
          ∧ (bs.flatten ++ rest).Perm pool
          ∧ rest.length = pool.length - m * s.K := by
  intro m
  induction m with
  | zero =>
      intro pool _
      exact ⟨[], pool, rfl, rfl, by omega, by simp, by omega⟩
  | succ m ih =>
      intro pool hpool
      have hpos : 0 < pool.length := by
        have := hpool 0 (Nat.succ_pos m)
        simpa using this
      cases pool with
      | nil => simp at hpos
      | cons o0 ps =>
          have hb0 : (([o0] : List Nat).erase o0) = [] := by simp
          obtain ⟨hflen, hfperm⟩ :=
            greedyFill_spec s s.K [] (o0 :: ps) (s.order_aisles o0) (by omega)
          have hlen1 : (greedyFill s s.K [] (o0 :: ps) (s.order_aisles o0)).1.length
              = min s.K (o0 :: ps).length := by
            rw [hflen]; simp
          have hlensum := hfperm.length_eq
          simp only [List.length_append, List.nil_append] at hlensum
          have hl2 : (greedyFill s s.K [] (o0 :: ps) (s.order_aisles o0)).2.length
              = (o0 :: ps).length - s.K := by omega
          obtain ⟨bs', rest, hok, hlen', hsizes, hperm', hrest⟩ :=
            ih (greedyFill s s.K [] (o0 :: ps) (s.order_aisles o0)).2
              (by
                intro j hj
                have h2 := hpool (j + 1) (by omega)
                have h3 : (j + 1) * s.K = j * s.K + s.K := by ring
                omega)
          refine ⟨(greedyFill s s.K [] (o0 :: ps) (s.order_aisles o0)).1 :: bs',
            rest, ?_, by simp [hlen'], ?_, ?_, ?_⟩
          · simp only [greedyOuter, hb0]
            rw [hok]
          · intro j hj
            cases j with
            | zero =>
                simpa using hlen1
            | succ j =>
                have hj' : j < m := by omega
                have h3 : (j + 1) * s.K = s.K + j * s.K := by ring
                have := hsizes j hj'
                simp only [List.getD_cons_succ]
                rw [this, hl2]
                congr 1
                omega
          · simp only [List.flatten_cons, List.append_assoc]
            refine (List.Perm.append_left _ hperm').trans ?_
            simpa using hfperm
          · have h3 : (m + 1) * s.K = s.K + m * s.K := by ring
            rw [hrest, hl2]
            omega

/-- First element of a list attaining the minimal objective value (strict
improvement scan).  This determinizes the tie-breaking that Gurobi leaves
unspecified among optimal solutions. -/
def argminFirst (f : List Nat → Nat) (l : List (List Nat)) : Option (List Nat) :=
  l.foldl
    (fun acc c =>
      match acc with
      | none => some c
      | some b => if f c < f b then some c else acc)
    none

/-- Enumeration of all length-`n` subsequences of a list (the feasible
subsets of the single-batch model, read back in pool order).  It lists the
same candidates as `List.sublistsLen` but by structural recursion, so that
concrete instances reduce inside the kernel. -/
def combinations : Nat → List Nat → List (List Nat)
  | 0, _ => [[]]
  | _ + 1, [] => []
  | n + 1, a :: l => (combinations n l).map (a :: ·) ++ combinations (n + 1) l

lemma mem_combinations : ∀ (l : List Nat) (n : Nat) (c : List Nat),
    c ∈ combinations n l ↔ c.Sublist l ∧ c.length = n := by
  intro l
  induction l with
  | nil =>
      intro n c
      match n with
      | 0 =>
          simp only [combinations, List.mem_singleton]
          constructor
          · rintro rfl
            exact ⟨List.Sublist.refl _, rfl⟩
          · rintro ⟨hs, hl⟩
            exact List.sublist_nil.mp hs
      | n + 1 =>
          simp only [combinations, List.not_mem_nil, false_iff]
          rintro ⟨hs, hl⟩
          have := List.sublist_nil.mp hs
          subst this
          simp at hl
  | cons a l ih =>
      intro n c
      match n with
      | 0 =>
          simp only [combinations, List.mem_singleton]
          constructor
          · rintro rfl
            exact ⟨List.nil_sublist _, rfl⟩
          · rintro ⟨hs, hl⟩
            exact List.length_eq_zero.mp hl
      | n + 1 =>
          simp only [combinations, List.mem_append, List.mem_map]
          constructor
          · rintro (⟨c', hc', rfl⟩ | hc)
            · obtain ⟨hs, hl⟩ := (ih n c').mp hc'
              exact ⟨List.Sublist.cons₂ a hs, by simp [hl]⟩
            · obtain ⟨hs, hl⟩ := (ih (n + 1) c).mp hc
              exact ⟨List.Sublist.cons a hs, hl⟩
          · rintro ⟨hs, hl⟩
            cases hs with
            | cons _ h => exact Or.inr ((ih (n + 1) c).mpr ⟨h, hl⟩)
            | cons₂ _ h =>
                refine Or.inl ⟨_, (ih n _).mpr ⟨h, ?_⟩, rfl⟩
                simpa using hl

lemma combinations_ne_nil : ∀ (l : List Nat) (n : Nat), n ≤ l.length →
    combinations n l ≠ [] := by
  intro l
  induction l with
  | nil =>
      intro n hn
      have : n = 0 := by simpa using hn
      subst this
      simp [combinations]
  | cons a l ih =>
      intro n hn
      match n with
      | 0 => simp [combinations]
      | n + 1 =>
          have hn' : n ≤ l.length := by simpa using hn
          have := ih n hn'
          simp only [combinations, ne_eq, List.append_eq_nil, List.map_eq_nil_iff,
            not_and]
          intro hmap
          exact absurd hmap this

/-- Translation of `Solver.MIP_single_batch(order_ids, batch_size, seed)`.
The Gurobi model has binaries `x[o]` over the pool and `y[a]` over the aisles
touched by the pool, constraints `x[seed] == 1` (when a seed is given),
`sum x[o] == batch_size` and `y[a] >= x[o]` for every pool order `o` touching
`a`, objective `min sum y[a]`; the read-back loop `for o in order_ids: if
x[o].X != 0` returns the chosen orders in pool order.  An optimal assignment
is therefore a length-`batch_size` subsequence of the pool containing the
seed that minimizes the number of distinct aisles of its members; the model
enumerates that feasible set and takes a minimizer (`argminFirst` fixes the
tie-break Gurobi leaves open).  On an infeasible model the read of `x[o].X`
raises, modelled by `none`. -/
def Solver.MIP_single_batch (s : Solver) (order_ids : List Nat)
    (batch_size : Nat) (seed : Option Nat) : Option (List Nat) :=
  let cands := (combinations batch_size order_ids).filter
    (fun c =>
      match seed with
      | some sd => decide (sd ∈ c)
      | none => true)
  argminFirst (fun c => countDistinct (c.flatMap s.order_aisles)) cands

/-- Removal of a finished batch from the pool: `for o in batch:
order_ids.remove(o)`. -/
def removeBatch (pool batch : List Nat) : List Nat :=
  batch.foldl (fun acc o => acc.erase o) pool

/-- Loop of `Solver.greedy_optimal_single_batching`: `B` single-batch calls
with `batch_size = min(14, len(order_ids))` (the literal `14` is hardcoded in
the source) and no seed, removing each returned batch from the pool. -/
def gosbLoop (s : Solver) : Nat → List Nat → Except PyError (List (List Nat))
  | 0, _ => .ok []
  | b + 1, order_ids =>
    match s.MIP_single_batch order_ids (min 14 order_ids.length) none with
    | none => .error .gurobiInfeasible
    | some batch =>
      match gosbLoop s b (removeBatch order_ids batch) with
      | .ok rest => .ok (batch :: rest)
      | .error e => .error e

/-- Translation of `Solver.greedy_optimal_single_batching`. -/
def Solver.greedy_optimal_single_batching (s : Solver) :
    Except PyError (List (List Nat)) :=
  gosbLoop s s.B s.order_ids

/-- Loop of `Solver.greedy_optimal_single_batching_with_seed`: as above but
the pool is pre-sorted and each call passes `order_ids[0]` as seed, an
`IndexError` when the pool is empty. -/
def gosbSeedLoop (s : Solver) : Nat → List Nat → Except PyError (List (List Nat))
  | 0, _ => .ok []
  | b + 1, order_ids =>
    match order_ids with
    | [] => .error .indexError
    | o0 :: _ =>
      match s.MIP_single_batch order_ids (min 14 order_ids.length) (some o0) with
      | none => .error .gurobiInfeasible
      | some batch =>
        match gosbSeedLoop s b (removeBatch order_ids batch) with
        | .ok rest => .ok (batch :: rest)
        | .error e => .error e

/-- Translation of `Solver.greedy_optimal_single_batching_with_seed`: copy
and stable-sort `order_ids` descending by `num_aisles`, then loop. -/
def Solver.greedy_optimal_single_batching_with_seed (s : Solver) :
    Except PyError (List (List Nat)) :=
  gosbSeedLoop s s.B
    (s.order_ids.insertionSort (fun a b => s.num_aisles b ≤ s.num_aisles a))

/-- Argument trace of the `MIP_single_batch` invocations actually performed
by `gosbLoop`: pairs of the passed pool and the passed `batch_size`. -/
def gosbCalls (s : Solver) : Nat → List Nat → List (List Nat × Nat)
  | 0, _ => []
  | b + 1, order_ids =>
    (order_ids, min 14 order_ids.length) ::
      (match s.MIP_single_batch order_ids (min 14 order_ids.length) none with
       | none => []
       | some batch => gosbCalls s b (removeBatch order_ids batch))

/-- Argument trace of the `MIP_single_batch` invocations actually performed
by `gosbSeedLoop`: triples of pool, `batch_size` and seed.  When the pool is
empty the argument expression `order_ids[0]` raises before any call, so the
trace ends. -/
def gosbSeedCalls (s : Solver) : Nat → List Nat → List (List Nat × Nat × Nat)
  | 0, _ => []
  | b + 1, order_ids =>
    match order_ids with
    | [] => []
    | o0 :: _ =>
      (order_ids, min 14 order_ids.length, o0) ::
        (match s.MIP_single_batch order_ids (min 14 order_ids.length) (some o0) with
         | none => []
         | some batch => gosbSeedCalls s b (removeBatch order_ids batch))

/-- Call trace of `Solver.greedy_optimal_single_batching`. -/
def Solver.gosbCallTrace (s : Solver) : List (List Nat × Nat) :=
  gosbCalls s s.B s.order_ids

/-- Call trace of `Solver.greedy_optimal_single_batching_with_seed`. -/
def Solver.gosbSeedCallTrace (s : Solver) : List (List Nat × Nat × Nat) :=
  gosbSeedCalls s s.B
    (s.order_ids.insertionSort (fun a b => s.num_aisles b ≤ s.num_aisles a))

lemma argminFirst_go_mem (f : List Nat → Nat) :
    ∀ (l : List (List Nat)) (acc : Option (List Nat)) (c : List Nat),
      l.foldl
        (fun acc c =>
          match acc with
          | none => some c
          | some b => if f c < f b then some c else acc)
        acc = some c →
      c ∈ l ∨ acc = some c := by
  intro l
  induction l with
  | nil => intro acc c h; exact Or.inr h
  | cons a l ih =>
      intro acc c h
      simp only [List.foldl_cons] at h
      rcases ih _ c h with hmem | hacc
      · exact Or.inl (List.mem_cons_of_mem _ hmem)
      · match acc with
        | none =>
            have hacc' : some a = some c := hacc
            simp only [Option.some.injEq] at hacc'
            exact Or.inl (hacc' ▸ List.mem_cons_self _ _)
        | some b =>
            have hacc' : (if f a < f b then some a else some b) = some c := hacc
            by_cases hlt : f a < f b
            · rw [if_pos hlt] at hacc'
              simp only [Option.some.injEq] at hacc'
              exact Or.inl (hacc' ▸ List.mem_cons_self _ _)
            · rw [if_neg hlt] at hacc'
              exact Or.inr hacc' 

lemma argminFirst_mem (f : List Nat → Nat) (l : List (List Nat)) (c : List Nat)
    (h : argminFirst f l = some c) : c ∈ l := by
  rcases argminFirst_go_mem f l none c h with hmem | hacc
  · exact hmem
  · exact absurd hacc (by simp)

lemma argminFirst_go_isSome (f : List Nat → Nat) :
    ∀ (l : List (List Nat)) (b : List Nat),
      ∃ c, l.foldl
        (fun acc c =>
          match acc with
          | none => some c
          | some b => if f c < f b then some c else acc)
        (some b) = some c := by
  intro l
  induction l with
  | nil => intro b; exact ⟨b, rfl⟩
  | cons a l ih =>
      intro b
      simp only [List.foldl_cons]
      by_cases hlt : f a < f b
      · rw [if_pos hlt]; exact ih a
      · rw [if_neg hlt]; exact ih b

lemma argminFirst_isSome (f : List Nat → Nat) (l : List (List Nat))
    (hl : l ≠ []) : ∃ c, argminFirst f l = some c := by
  cases l with
  | nil => exact absurd rfl hl
  | cons a l =>
      unfold argminFirst
      simp only [List.foldl_cons]
      exact argminFirst_go_isSome f l a

lemma MIP_single_batch_unseeded (s : Solver) (pool : List Nat)
    (batch_size : Nat) (hbs : batch_size ≤ pool.length) :
    ∃ batch, s.MIP_single_batch pool batch_size none = some batch
      ∧ batch.length = batch_size ∧ batch.Sublist pool := by
  have hfilter : (combinations batch_size pool).filter
      (fun c =>
        match (none : Option Nat) with
        | some sd => decide (sd ∈ c)
        | none => true) = combinations batch_size pool := by
    simp
  have hne : combinations batch_size pool ≠ [] := combinations_ne_nil pool _ hbs
  obtain ⟨c, hc⟩ := argminFirst_isSome
    (fun c => countDistinct (c.flatMap s.order_aisles))
    (combinations batch_size pool) hne
  have hmem := argminFirst_mem _ _ _ hc
  obtain ⟨hsub, hlen⟩ := (mem_combinations pool batch_size c).mp hmem
  refine ⟨c, ?_, hlen, hsub⟩
  simp only [Solver.MIP_single_batch]
  rw [hfilter]
  exact hc

lemma MIP_single_batch_seeded (s : Solver) (o0 : Nat) (ps : List Nat)
    (batch_size : Nat) (hbs : batch_size ≤ ps.length + 1) (hbs1 : 1 ≤ batch_size) :
    ∃ batch, s.MIP_single_batch (o0 :: ps) batch_size (some o0) = some batch
      ∧ batch.length = batch_size ∧ batch.Sublist (o0 :: ps) ∧ o0 ∈ batch := by
  have hwit_sub : (o0 :: ps.take (batch_size - 1)).Sublist (o0 :: ps) :=
    List.Sublist.cons₂ o0 (List.take_sublist _ _)
  have hwit_len : (o0 :: ps.take (batch_size - 1)).length = batch_size := by
    simp only [List.length_cons, List.length_take]
    omega
  have hwit_mem : (o0 :: ps.take (batch_size - 1)) ∈
      (combinations batch_size (o0 :: ps)).filter
        (fun c =>
          match (some o0 : Option Nat) with
          | some sd => decide (sd ∈ c)
          | none => true) := by
    rw [List.mem_filter]
    constructor
    · exact (mem_combinations _ _ _).mpr ⟨hwit_sub, hwit_len⟩
    · simp
  have hne : (combinations batch_size (o0 :: ps)).filter
      (fun c =>
        match (some o0 : Option Nat) with
        | some sd => decide (sd ∈ c)
        | none => true) ≠ [] :=
    List.ne_nil_of_mem hwit_mem
  obtain ⟨c, hc⟩ := argminFirst_isSome
    (fun c => countDistinct (c.flatMap s.order_aisles)) _ hne
  have hmem := argminFirst_mem _ _ _ hc
  rw [List.mem_filter] at hmem
  obtain ⟨hmem_sl, hmem_seed⟩ := hmem
  obtain ⟨hsub, hlen⟩ := (mem_combinations _ _ _).mp hmem_sl
  refine ⟨c, ?_, hlen, hsub, by simpa using hmem_seed⟩
  simp only [Solver.MIP_single_batch]
  exact hc

lemma removeBatch_eq_diff : ∀ (batch pool : List Nat),
    removeBatch pool batch = pool.diff batch := by
  intro batch
  induction batch with
  | nil => intro pool; simp [removeBatch, List.diff_nil]
  | cons a batch ih =>
      intro pool
      rw [List.diff_cons, ← ih (pool.erase a)]
      simp [removeBatch]

lemma sublist_append_diff_perm (batch pool : List Nat) (h : batch.Sublist pool) :
    (batch ++ pool.diff batch).Perm pool := by
  rw [← Multiset.coe_eq_coe, ← Multiset.coe_add, ← Multiset.coe_sub]
  exact add_tsub_cancel_of_le (Multiset.coe_le.mpr h.subperm)

lemma gosbLoop_spec (s : Solver) :
    ∀ (m : Nat) (pool : List Nat),
      ∃ bs rest,
        gosbLoop s m pool = .ok bs
          ∧ bs.length = m
          ∧ (∀ j, j < m → (bs.getD j []).length = min 14 (pool.length - j * 14))
          ∧ (bs.flatten ++ rest).Perm pool
          ∧ rest.length = pool.length - m * 14 := by
  intro m
  induction m with
  | zero =>
      intro pool
      exact ⟨[], pool, rfl, rfl, by omega, by simp, by omega⟩
  | succ m ih =>
      intro pool
      obtain ⟨batch, hbatch, hblen, hbsub⟩ :=
        MIP_single_batch_unseeded s pool (min 14 pool.length) (by omega)
      have hperm0 : (batch ++ pool.diff batch).Perm pool :=
        sublist_append_diff_perm batch pool hbsub
      have hrem : removeBatch pool batch = pool.diff batch := removeBatch_eq_diff _ _
      have hdlen : (pool.diff batch).length = pool.length - 14 ⊓ pool.length := by
        have := hperm0.length_eq
        simp only [List.length_append] at this
        omega
      obtain ⟨bs', rest, hok, hlen', hsizes, hperm', hrest⟩ := ih (pool.diff batch)
      refine ⟨batch :: bs', rest, ?_, by simp [hlen'], ?_, ?_, ?_⟩
      · simp only [gosbLoop, hbatch, hrem, hok]
      · intro j hj
        cases j with
        | zero => simpa using hblen
        | succ j =>
            have hj' : j < m := by omega
            have h3 : (j + 1) * 14 = 14 + j * 14 := by ring
            simp only [List.getD_cons_succ]
            rw [hsizes j hj', hdlen]
            congr 1
            omega
      · simp only [List.flatten_cons, List.append_assoc]
        exact (List.Perm.append_left batch hperm').trans hperm0
      · have h3 : (m + 1) * 14 = 14 + m * 14 := by ring
        rw [hrest, hdlen]
        omega

lemma gosbSeedLoop_spec (s : Solver) :
    ∀ (m : Nat) (pool : List Nat),
      (∀ j, j < m → j * 14 < pool.length) →
      ∃ bs rest,
        gosbSeedLoop s m pool = .ok bs
          ∧ bs.length = m
          ∧ (∀ j, j < m → (bs.getD j []).length = min 14 (pool.length - j * 14))
          ∧ (bs.flatten ++ rest).Perm pool
          ∧ rest.length = pool.length - m * 14 := by
  intro m
  induction m with
  | zero =>
      intro pool _
      exact ⟨[], pool, rfl, rfl, by omega, by simp, by omega⟩
  | succ m ih =>
      intro pool hpool
      have hpos : 0 < pool.length := by
        have := hpool 0 (Nat.succ_pos m)
        simpa using this
      cases pool with
      | nil => simp at hpos
      | cons o0 ps =>
          obtain ⟨batch, hbatch, hblen, hbsub, _⟩ :=
            MIP_single_batch_seeded s o0 ps (min 14 (o0 :: ps).length)
              (by simp only [List.length_cons]; omega)
              (by simp only [List.length_cons]; omega)
          have hperm0 : (batch ++ (o0 :: ps).diff batch).Perm (o0 :: ps) :=
            sublist_append_diff_perm batch (o0 :: ps) hbsub
          have hrem : removeBatch (o0 :: ps) batch = (o0 :: ps).diff batch :=
            removeBatch_eq_diff _ _
          have hdlen : ((o0 :: ps).diff batch).length
              = (o0 :: ps).length - 14 ⊓ (o0 :: ps).length := by
            have := hperm0.length_eq
            simp only [List.length_append] at this
            omega
          obtain ⟨bs', rest, hok, hlen', hsizes, hperm', hrest⟩ :=
            ih ((o0 :: ps).diff batch)
              (by
                intro j hj
                have h2 := hpool (j + 1) (by omega)
                have h3 : (j + 1) * 14 = j * 14 + 14 := by ring
                omega)
          refine ⟨batch :: bs', rest, ?_, by simp [hlen'], ?_, ?_, ?_⟩
          · simp only [gosbSeedLoop, hbatch, hrem, hok]
          · intro j hj
            cases j with
            | zero => simpa using hblen
            | succ j =>
                have hj' : j < m := by omega
                have h3 : (j + 1) * 14 = 14 + j * 14 := by ring
                simp only [List.getD_cons_succ]
                rw [hsizes j hj', hdlen]
                congr 1
                omega
          · simp only [List.flatten_cons, List.append_assoc]
            exact (List.Perm.append_left batch hperm').trans hperm0
          · have h3 : (m + 1) * 14 = 14 + m * 14 := by ring
            rw [hrest, hdlen]
            omega

lemma gosbCalls_batchsize (s : Solver) :
    ∀ (m : Nat) (pool : List Nat),
      ∀ c ∈ gosbCalls s m pool, c.2 = min 14 c.1.length := by
  intro m
  induction m with
  | zero => intro pool c hc; simp [gosbCalls] at hc
  | succ m ih =>
      intro pool c hc
      simp only [gosbCalls, List.mem_cons] at hc
      rcases hc with rfl | hc
      · rfl
      · match hmb : s.MIP_single_batch pool (min 14 pool.length) none with
        | none => rw [hmb] at hc; simp at hc
        | some batch =>
            rw [hmb] at hc
            exact ih _ c hc

lemma gosbSeedCalls_contract (s : Solver) :
    ∀ (m : Nat) (pool : List Nat),
      ∀ c ∈ gosbSeedCalls s m pool,
        c.2.1 = min 14 c.1.length ∧ c.2.1 ≤ c.1.length
          ∧ c.2.2 ∈ c.1 ∧ 1 ≤ c.2.1 := by
  intro m
  induction m with
  | zero => intro pool c hc; simp [gosbSeedCalls] at hc
  | succ m ih =>
      intro pool c hc
      cases pool with
      | nil => simp [gosbSeedCalls] at hc
      | cons o0 ps =>
          simp only [gosbSeedCalls, List.mem_cons] at hc
          rcases hc with rfl | hc
          · exact ⟨rfl, by dsimp only; omega, List.mem_cons_self _ _,
              by dsimp only; simp only [List.length_cons]; omega⟩
          · match hmb : s.MIP_single_batch (o0 :: ps)
              (min 14 (o0 :: ps).length) (some o0) with
            | none => rw [hmb] at hc; simp at hc
            | some batch =>
                rw [hmb] at hc
                exact ih _ c hc

/-- While-loop of `Solver.random_batches` filling one batch: while
`len(batch) < min(K, len(batch) + len(order_ids))`, pick
`random.choice(order_ids)`, append it and remove it from the pool.  The
random stream `rs` supplies one number per `random.choice` call (consumed at
time `t`), reduced modulo the pool size; quantifying over all streams covers
every possible sequence of choices.  Fuel `K` is exact as in `greedyFill`. -/
def randomFill (s : Solver) (rs : Nat → Nat) :
    Nat → Nat → List Nat → List Nat → List Nat × List Nat × Nat
  | 0, t, batch, pool => (batch, pool, t)
  | fuel + 1, t, batch, pool =>
    if h : batch.length < min s.K (batch.length + pool.length) then
      have hpos : 0 < pool.length := by omega
      let random_order := pool.get ⟨rs t % pool.length, Nat.mod_lt _ hpos⟩
      randomFill s rs fuel (t + 1) (batch ++ [random_order])
        (pool.erase random_order)
    else (batch, pool, t)

/-- Outer loop of `Solver.random_batches` over the `B` batches, threading the
position in the random stream. -/
def randomOuter (s : Solver) (rs : Nat → Nat) :
    Nat → Nat → List Nat → List (List Nat)
  | 0, _, _ => []
  | m + 1, t, pool =>
    let fp := randomFill s rs s.K t [] pool
    fp.1 :: randomOuter s rs m fp.2.2 fp.2.1

/-- Translation of `Solver.random_batches`: copy `order_ids` and fill `B`
batches with uniformly random draws. -/
def Solver.random_batches (s : Solver) (rs : Nat → Nat) : List (List Nat) :=
  randomOuter s rs s.B 0 s.order_ids

lemma randomFill_spec (s : Solver) (rs : Nat → Nat) :
    ∀ (fuel t : Nat) (batch pool : List Nat),
      min s.K (batch.length + pool.length) - batch.length ≤ fuel →
      (randomFill s rs fuel t batch pool).1.length
          = max batch.length (min s.K (batch.length + pool.length))
        ∧ ((randomFill s rs fuel t batch pool).1
            ++ (randomFill s rs fuel t batch pool).2.1).Perm (batch ++ pool) := by
  intro fuel
  induction fuel with
  | zero =>
      intro t batch pool hfuel
      constructor
      · dsimp only [randomFill]
        omega
      · dsimp only [randomFill]
        exact List.Perm.refl _
  | succ fuel ih =>
      intro t batch pool hfuel
      by_cases hcond : batch.length < min s.K (batch.length + pool.length)
      · have hpos : 0 < pool.length := by omega
        set random_order := pool.get ⟨rs t % pool.length, Nat.mod_lt _ hpos⟩
          with hro
        have hmem : random_order ∈ pool := by
          rw [hro]; exact List.get_mem _ _ _
        have hlen_erase : (pool.erase random_order).length = pool.length - 1 :=
          List.length_erase_of_mem hmem
        have hstep : randomFill s rs (fuel + 1) t batch pool
            = randomFill s rs fuel (t + 1) (batch ++ [random_order])
              (pool.erase random_order) := by
          rw [randomFill, dif_pos hcond]
        have hfuel' : min s.K ((batch ++ [random_order]).length
              + (pool.erase random_order).length)
            - (batch ++ [random_order]).length ≤ fuel := by
          simp only [List.length_append, List.length_singleton, hlen_erase]
          omega
        obtain ⟨ihlen, ihperm⟩ := ih (t + 1) (batch ++ [random_order])
          (pool.erase random_order) hfuel'
        constructor
        · rw [hstep, ihlen]
          simp only [List.length_append, List.length_singleton, hlen_erase]
          omega
        · rw [hstep]
          refine ihperm.trans ?_
          rw [List.append_assoc]
          refine List.Perm.append_left batch ?_
          exact (List.perm_cons_erase hmem).symm
      · constructor
        · rw [randomFill, dif_neg hcond]
          dsimp only
          omega
        · rw [randomFill, dif_neg hcond]

lemma randomOuter_spec (s : Solver) (rs : Nat → Nat) :
    ∀ (m t : Nat) (pool : List Nat),
      (randomOuter s rs m t pool).length = m
        ∧ (∀ j, j < m → ((randomOuter s rs m t pool).getD j []).length
            = min s.K (pool.length - j * s.K))
        ∧ ∃ rest, ((randomOuter s rs m t pool).flatten ++ rest).Perm pool
            ∧ rest.length = pool.length - m * s.K := by
  intro m
  induction m with
  | zero =>
      intro t pool
      exact ⟨rfl, by omega, pool, by simp [randomOuter], by omega⟩
  | succ m ih =>
      intro t pool
      obtain ⟨hflen, hfperm⟩ := randomFill_spec s rs s.K t [] pool (by omega)
      have hlensum := hfperm.length_eq
      simp only [List.length_append, List.nil_append] at hlensum
      have hl1 : (randomFill s rs s.K t [] pool).1.length = min s.K pool.length := by
        rw [hflen]; simp
      have hl2 : (randomFill s rs s.K t [] pool).2.1.length
          = pool.length - s.K := by omega
      obtain ⟨hlen', hsizes, rest, hperm', hrest⟩ :=
        ih (randomFill s rs s.K t [] pool).2.2 (randomFill s rs s.K t [] pool).2.1
      refine ⟨by simp [randomOuter, hlen'], ?_, rest, ?_, ?_⟩
      · intro j hj
        cases j with
        | zero => simpa [randomOuter] using hl1
        | succ j =>
            have hj' : j < m := by omega
            have h3 : (j + 1) * s.K = s.K + j * s.K := by ring
            simp only [randomOuter, List.getD_cons_succ]
            rw [hsizes j hj', hl2]
            congr 1
            omega
      · simp only [randomOuter, List.flatten_cons, List.append_assoc]
        refine (List.Perm.append_left _ hperm').trans ?_
        simpa using hfperm
      · have h3 : (m + 1) * s.K = s.K + m * s.K := by ring
        rw [hrest, hl2]
        omega

/-- Feasibility of an engine assignment for the full model of `Solver.MIP`,
translating its constraint families: `batch_size` (capacity per batch),
`single_batch` (each order in exactly one batch), `batch_aisle` (a batch
visits every aisle one of its orders touches) and `num_aisles` (the `d`
bookkeeping).  Booleans stand for the binaries read back as `!= 0`. -/
def MIP_feasible (s : Solver) (x : Nat → Nat → Bool) (y : Nat → Nat → Bool)
    (d : Nat → Nat) : Prop :=
  (∀ b, b < s.B → s.order_ids.countP (fun o => x o b) ≤ s.K)
    ∧ (∀ o ∈ s.order_ids, (List.range s.B).countP (fun b => x o b) = 1)
    ∧ (∀ b, b < s.B → ∀ a ∈ s.aisles, ∀ o ∈ s.aisles_orders a,
        x o b = true → y b a = true)
    ∧ (∀ b, b < s.B → d b = s.aisles.countP (fun a => y b a))

instance (s : Solver) (x : Nat → Nat → Bool) (y : Nat → Nat → Bool)
    (d : Nat → Nat) : Decidable (MIP_feasible s x y d) := by
  unfold MIP_feasible
  infer_instance

/-- Read-back loop of `Solver.MIP`: `for k in range(B): [o for o in
self.order_ids if x[o,k].X != 0]`. -/
def MIP_extract (s : Solver) (x : Nat → Nat → Bool) : List (List Nat) :=
  (List.range s.B).map (fun b => s.order_ids.filter (fun o => x o b))

/-- Translation of `Solver.MIP(initial_solution)`.  The body resolves the
free name `solver` against the module globals, modelled by the explicit
`globalSolver` argument: a missing binding is a `NameError`, and when
`initial_solution` is set the warm start is `solver.greedy_optimal_single_batching()`
computed on that global instance, not on `self`.  The optimization engine is
abstracted as a function from the optional warm-start batching (from which
the source derives the `Start` hints for `x` and `y`) to the assignment read
back for `x`; `model.write("model.lp")` is an artifact side effect without
influence on the value. -/
def Solver.MIP (self : Solver) (globalSolver : Option Solver)
    (engine : Option (List (List Nat)) → (Nat → Nat → Bool))
    (initial_solution : Bool) : Except PyError (List (List Nat)) :=
  match
    (if initial_solution then
      match globalSolver with
      | none => Except.error PyError.nameError
      | some solver => (solver.greedy_optimal_single_batching).map some
     else .ok none) with
  | .error e => .error e
  | .ok ws => .ok (MIP_extract self (engine ws))

lemma MIP_extract_flatten_perm (s : Solver) (x : Nat → Nat → Bool)
    (hnodup : s.order_ids.Nodup)
    (hone : ∀ o ∈ s.order_ids, (List.range s.B).countP (fun b => x o b) = 1) :
    (MIP_extract s x).flatten.Perm s.order_ids := by
  rw [List.perm_iff_count]
  intro a
  rw [List.count_flatten, MIP_extract, List.map_map]
  by_cases hmem : a ∈ s.order_ids
  · have hcount : s.order_ids.count a = 1 := List.count_eq_one_of_mem hnodup hmem
    rw [hcount]
    have hterm : ∀ b : Nat,
        (s.order_ids.filter (fun o => x o b)).count a
          = if x a b then 1 else 0 := by
      intro b
      by_cases hx : x a b
      · rw [List.count_filter (by simpa using hx), hcount]
        simp [hx]
      · rw [List.count_eq_zero.mpr, if_neg hx]
        intro hcontra
        rw [List.mem_filter] at hcontra
        exact hx (by simpa using hcontra.2)
    have hmap : (List.range s.B).map
          ((fun l => l.count a) ∘ (fun b => s.order_ids.filter (fun o => x o b)))
        = (List.range s.B).map (fun b => if x a b then 1 else 0) := by
      refine List.map_congr_left ?_
      intro b _
      exact hterm b
    rw [hmap]
    have hsum : ∀ (l : List Nat),
        (l.map (fun b => if x a b then 1 else 0)).sum
          = l.countP (fun b => x a b) := by
      intro l
      induction l with
      | nil => simp
      | cons hd tl ih =>
          by_cases hx : x a hd
          · simp [List.countP_cons, hx, ih]
            omega
          · simp [List.countP_cons, hx, ih]
    rw [hsum, hone a hmem]
  · have hzero : s.order_ids.count a = 0 := List.count_eq_zero.mpr hmem
    rw [hzero]
    have hterm : ∀ b ∈ List.range s.B,
        ((fun l => l.count a) ∘ (fun b => s.order_ids.filter (fun o => x o b))) b
          = 0 := by
      intro b _
      simp only [Function.comp_apply]
      rw [List.count_eq_zero]
      intro hcontra
      exact hmem (List.mem_of_mem_filter hcontra)
    rw [List.map_congr_left hterm]
    simp

lemma MIP_extract_sizes (s : Solver) (x : Nat → Nat → Bool)
    (hcap : ∀ b, b < s.B → s.order_ids.countP (fun o => x o b) ≤ s.K) :
    (MIP_extract s x).length = s.B
      ∧ ∀ batch ∈ MIP_extract s x, batch.length ≤ s.K := by
  constructor
  · simp [MIP_extract]
  · intro batch hbatch
    rw [MIP_extract, List.mem_map] at hbatch
    obtain ⟨b, hb, rfl⟩ := hbatch
    rw [← List.countP_eq_length_filter]
    exact hcap b (List.mem_range.mp hb)

lemma forall_mem_of_getD (bs : List (List Nat)) (P : Nat → Prop)
    (h : ∀ j, j < bs.length → P ((bs.getD j []).length)) :
    ∀ b ∈ bs, P b.length := by
  intro b hb
  obtain ⟨n, hn, rfl⟩ := List.mem_iff_getElem.mp hb
  have := h n hn
  rwa [List.getD_eq_getElem bs [] hn] at this

/-- State-passing form of `Solver.random_batches`: the second component is
the state of `self` when the method returns.  The body writes only the
locals `order_ids` (a `copy.copy` of the field), `batch` and `batches`; no
`self.` field is assigned, so the post-state is the pre-state. -/
def Solver.random_batches_st (s : Solver) (rs : Nat → Nat) :
    List (List Nat) × Solver :=
  (s.random_batches rs, s)

/-- State-passing form of `Solver.greedy_batches`; the sort and all removals
act on the local copy of `order_ids`, never on the field. -/
def Solver.greedy_batches_st (s : Solver) :
    Except PyError (List (List Nat)) × Solver :=
  (s.greedy_batches, s)

/-- State-passing form of `Solver.greedy_optimal_single_batching`. -/
def Solver.greedy_optimal_single_batching_st (s : Solver) :
    Except PyError (List (List Nat)) × Solver :=
  (s.greedy_optimal_single_batching, s)

/-- State-passing form of `Solver.greedy_optimal_single_batching_with_seed`. -/
def Solver.greedy_optimal_single_batching_with_seed_st (s : Solver) :
    Except PyError (List (List Nat)) × Solver :=
  (s.greedy_optimal_single_batching_with_seed, s)

/-- State-passing form of `Solver.MIP`: the method reads `self` and the
global `solver` binding but assigns to neither, so both pass through. -/
def Solver.MIP_st (self : Solver) (globalSolver : Option Solver)
    (engine : Option (List (List Nat)) → (Nat → Nat → Bool))
    (initial_solution : Bool) :
    Except PyError (List (List Nat)) × Solver × Option Solver :=
  (self.MIP globalSolver engine initial_solution, self, globalSolver)

/-- Concrete instance from the spec's test scenario:
`{o1:{a1,a2}, o2:{a2}, o3:{a3}}` with `K = 2`. -/
def exampleOrders : List (Nat × List Item) :=
  [(1, [⟨1⟩, ⟨2⟩]), (2, [⟨2⟩]), (3, [⟨3⟩])]

/-- Solver for `exampleOrders` with `K = 2` (so `B = 2`). -/
def exampleSolver : Solver := mkSolver exampleOrders 2

/-- Solver for `exampleOrders` with `K = 14`, the batch size hardcoded in
the exact-single-batch strategies (so `B = 1`). -/
def exampleSolver14 : Solver := mkSolver exampleOrders 14

/-- Two orders in two distinct aisles. -/
def twoOrders : List (Nat × List Item) := [(1, [⟨1⟩]), (2, [⟨2⟩])]

/-- Solver for `twoOrders` with `K = 1` (so `B = 2`). -/
def s2 : Solver := mkSolver twoOrders 1

/-- Fifteen orders in fifteen distinct aisles. -/
def fifteenOrders : List (Nat × List Item) :=
  (List.range 15).map (fun i => (i + 1, [⟨i + 1⟩]))

/-- Solver for `fifteenOrders` with `K = 15` (so `B = 1`). -/
def s15 : Solver := mkSolver fifteenOrders 15

/-- C4: in the overlap-greedy strategy the order selected at every step is
the first order in scan order whose number of new aisles is minimal; a
new-aisle count of 0 ends the scan at once, so the result does not depend on
the part of the pool after the first zero-count order; on the instance
`{o1:{a1,a2}, o2:{a2}, o3:{a3}}` with `K = 2` the strategy yields batches
`{o1,o2}` and `{o3}` with evaluator total 3. -/
theorem claim_C4 :
    (∀ (s : Solver) (ba pool : List Nat), pool ≠ [] →
       ∃ o, scanBest s ba pool = (some o, s.order_aisles o)
         ∧ firstMinNewAisles s ba pool = some o)
    ∧ (∀ (s : Solver) (ba l₁ l₂ l₂' : List Nat) (o : Nat),
        s.numNewAisles ba o = 0 →
        scanBest s ba (l₁ ++ o :: l₂) = scanBest s ba (l₁ ++ o :: l₂'))
    ∧ exampleSolver.greedy_batches = .ok [[1, 2], [3]]
    ∧ exampleSolver.check_num_aisles [[1, 2], [3]] = 3 := by
  refine ⟨scanBest_eq_firstMin, ?_, by rfl, by rfl⟩
  intro s ba l₁ l₂ l₂' o h0
  exact scanBest_break_tail s ba l₁ l₂ l₂' o h0

/-- Witness for C4 at concrete inputs: the scan over the one-element pool
`[3]` agrees with the spec-side first-minimal rule, and appending `[3]`
after the zero-count order `2` does not change the scan result. -/
theorem claim_C4_witness :
    scanBest exampleSolver [] [3]
        = (firstMinNewAisles exampleSolver [] [3], exampleSolver.order_aisles 3)
    ∧ scanBest exampleSolver [1, 2] ([] ++ 2 :: [3])
        = scanBest exampleSolver [1, 2] ([] ++ 2 :: []) := by
  obtain ⟨o, h1, h2⟩ := claim_C4.1 exampleSolver [] [3] (by decide)
  refine ⟨?_, claim_C4.2.1 exampleSolver [1, 2] [] [3] [] 2 (by decide)⟩
  have ho : o = 3 := by
    have hmem := scanBest_mem exampleSolver [] [3] o (by rw [h1])
    simpa using hmem
  rw [h1, h2, ho]

/-- C5: the Evaluator `check_num_aisles` returns, for any batching, the sum
over batches of the cardinality of the union of the aisle sets of the
batch's member orders. -/
theorem claim_C5 : ∀ (s : Solver) (batches : List (List Nat)),
    s.check_num_aisles batches = evaluatorSpec s batches := by
  intro s batches
  unfold Solver.check_num_aisles evaluatorSpec
  congr 1
  refine List.map_congr_left ?_
  intro b _
  rw [countDistinct_eq_card_toFinset, toFinset_flatMap_eq_foldr]

/-- C6: the Incidence Model satisfies the round-trip relation: for every
aisle `a` and every order id `o`, `o ∈ aisles_orders[a]` iff
`a ∈ order_aisles[o]`. -/
theorem claim_C6 : ∀ (orderlist : List (Nat × List Item)) (K a o : Nat),
    o ∈ (mkSolver orderlist K).order_ids →
    (o ∈ (mkSolver orderlist K).aisles_orders a
      ↔ a ∈ (mkSolver orderlist K).order_aisles o) := by
  intro ol K a o ho
  simp only [mkSolver] at ho ⊢
  rw [List.mem_filter]
  simp [ho]

/-- Witness for C6: order 1 of the example instance touches aisle 1, and the
round-trip relation holds there. -/
theorem claim_C6_witness :
    1 ∈ exampleSolver.aisles_orders 1 ↔ 1 ∈ exampleSolver.order_aisles 1 :=
  claim_C6 exampleOrders 2 1 1 (by decide)

/-- C7: no strategy mutates the Solver construction-time state: in
state-passing form every strategy returns `self` (and the global binding)
unchanged, because the source methods assign only to local copies. -/
theorem claim_C7 : ∀ (s : Solver) (rs : Nat → Nat) (g : Option Solver)
    (engine : Option (List (List Nat)) → (Nat → Nat → Bool)) (init : Bool),
    (s.random_batches_st rs).2 = s
    ∧ s.greedy_batches_st.2 = s
    ∧ s.greedy_optimal_single_batching_st.2 = s
    ∧ s.greedy_optimal_single_batching_with_seed_st.2 = s
    ∧ (s.MIP_st g engine init).2 = (s, g) := by
  intro s rs g engine init
  exact ⟨rfl, rfl, rfl, rfl, rfl⟩

/-- C8: every `MIP_single_batch` invocation actually performed by either
exact-single-batch greedy strategy requests a batch size at most the pool
size, and every seeded invocation passes a seed from the pool together with
a positive batch size. -/
theorem claim_C8 : ∀ (s : Solver),
    (∀ c ∈ s.gosbCallTrace, c.2 ≤ c.1.length)
    ∧ (∀ c ∈ s.gosbSeedCallTrace,
        c.2.1 ≤ c.1.length ∧ c.2.2 ∈ c.1 ∧ 1 ≤ c.2.1) := by
  intro s
  constructor
  · intro c hc
    have h := gosbCalls_batchsize s s.B s.order_ids c hc
    rw [h]
    omega
  · intro c hc
    obtain ⟨_, h2, h3, h4⟩ := gosbSeedCalls_contract s s.B _ c hc
    exact ⟨h2, h3, h4⟩

/-- Witness for C8 at the two-order instance: its first unseeded call
requests 2 of 2 pool orders, and its only seeded call requests 2 of 2 with
seed 1 drawn from the pool. -/
theorem claim_C8_witness :
    ((([1, 2] : List Nat), 2) : List Nat × Nat).2
        ≤ ((([1, 2] : List Nat), 2) : List Nat × Nat).1.length
    ∧ ((([1, 2] : List Nat), 2, 1) : List Nat × Nat × Nat).2.1
        ≤ ((([1, 2] : List Nat), 2, 1) : List Nat × Nat × Nat).1.length
    ∧ ((([1, 2] : List Nat), 2, 1) : List Nat × Nat × Nat).2.2
        ∈ ((([1, 2] : List Nat), 2, 1) : List Nat × Nat × Nat).1
    ∧ 1 ≤ ((([1, 2] : List Nat), 2, 1) : List Nat × Nat × Nat).2.1 := by
  have h1 := (claim_C8 s2).1 ([1, 2], 2) (by decide)
  have h2 := (claim_C8 s2).2 ([1, 2], 2, 1) (by decide)
  exact ⟨h1, h2.1, h2.2.1, h2.2.2⟩

/-- C9: `Solver.MIP` with `initial_solution` resolves the free name `solver`
against the module globals: without a global binding it raises `NameError`,
and with a binding to another instance `g` the warm start passed to the
engine is `g`'s `greedy_optimal_single_batching`, not `self`'s. -/
theorem claim_C9 : ∀ (self g : Solver)
    (engine : Option (List (List Nat)) → (Nat → Nat → Bool))
    (ws : List (List Nat)),
    self.MIP none engine true = .error .nameError
    ∧ (g.greedy_optimal_single_batching = .ok ws →
        self.MIP (some g) engine true
          = .ok (MIP_extract self (engine (some ws)))) := by
  intro self g engine ws
  constructor
  · rfl
  · intro h
    simp [Solver.MIP, h, Except.map]

/-- Witness for C9: calling `MIP(initial_solution=True)` on `s2` with no
global binding raises `NameError`; with the global bound to
`exampleSolver14` the engine receives that instance's single-batch greedy
batching `[[1,2,3]]`. -/
theorem claim_C9_witness :
    s2.MIP none (fun _ _ _ => false) true = .error .nameError
    ∧ s2.MIP (some exampleSolver14) (fun _ _ _ => false) true
        = .ok (MIP_extract s2 ((fun _ _ _ => false) (some [[1, 2, 3]]))) :=
  ⟨(claim_C9 s2 exampleSolver14 (fun _ _ _ => false) [[1, 2, 3]]).1,
   (claim_C9 s2 exampleSolver14 (fun _ _ _ => false) [[1, 2, 3]]).2 (by rfl)⟩

/-- C3 corrected: both exact-single-batch greedy strategies invoke the
single-batch solver with `batch_size = min(14, |pool|)` — the literal 14
hardcoded in the source — on every performed call; this equals
`min(K, |pool|)` precisely when the configured `K` is 14. -/
theorem claim_C3_amended : ∀ (s : Solver),
    (∀ c ∈ s.gosbCallTrace, c.2 = min 14 c.1.length)
    ∧ (∀ c ∈ s.gosbSeedCallTrace, c.2.1 = min 14 c.1.length)
    ∧ (s.K = 14 →
        (∀ c ∈ s.gosbCallTrace, c.2 = min s.K c.1.length)
        ∧ ∀ c ∈ s.gosbSeedCallTrace, c.2.1 = min s.K c.1.length) := by
  intro s
  refine ⟨gosbCalls_batchsize s s.B s.order_ids, ?_, ?_⟩
  · intro c hc
    exact (gosbSeedCalls_contract s s.B _ c hc).1
  · intro hK
    constructor
    · intro c hc
      rw [hK]
      exact gosbCalls_batchsize s s.B s.order_ids c hc
    · intro c hc
      rw [hK]
      exact (gosbSeedCalls_contract s s.B _ c hc).1

/-- Counterexample for C3 as stated: on the two-order instance with `K = 1`
the first call of `greedy_optimal_single_batching` passes the pool `[1, 2]`
with `batch_size = 2`, while `min(K, |pool|) = 1`. -/
theorem claim_C3_counterexample :
    s2.gosbCallTrace.getD 0 ([], 0) = ([1, 2], 2)
    ∧ min s2.K ([1, 2] : List Nat).length = 1
    ∧ (2 : Nat) ≠ 1 :=
  ⟨by rfl, by rfl, by decide⟩

/-- Witness for C3: the first unseeded call of the two-order instance indeed
has batch size `min(14, 2) = 2`. -/
theorem claim_C3_witness :
    ((([1, 2] : List Nat), 2) : List Nat × Nat).2
      = min 14 ((([1, 2] : List Nat), 2) : List Nat × Nat).1.length :=
  (claim_C3_amended s2).1 ([1, 2], 2) (by decide)

/-- C10: in `random_batches`, for every sequence of random choices, every
batch except possibly the last has size exactly `K` and no returned batch is
empty. -/
theorem claim_C10 : ∀ (s : Solver) (rs : Nat → Nat), 1 ≤ s.K →
    s.B = (s.order_ids.length + s.K - 1) / s.K →
    (s.random_batches rs).length = s.B
    ∧ (∀ j, j + 1 < s.B → ((s.random_batches rs).getD j []).length = s.K)
    ∧ (∀ b ∈ s.random_batches rs, b ≠ []) := by
  intro s rs hK hB
  obtain ⟨hlen, hsizes, rest, hperm, hrest⟩ := randomOuter_spec s rs s.B 0 s.order_ids
  have hrb : s.random_batches rs = randomOuter s rs s.B 0 s.order_ids := rfl
  refine ⟨by rw [hrb]; exact hlen, ?_, ?_⟩
  · intro j hj
    rw [hrb, hsizes j (by omega)]
    have h1 : (j + 1) * s.K < s.order_ids.length :=
      ceil_mul_lt _ _ (j + 1) hK (hB ▸ hj)
    have h2 : (j + 1) * s.K = j * s.K + s.K := by ring
    omega
  · have hpos : ∀ b ∈ randomOuter s rs s.B 0 s.order_ids, b.length ≠ 0 := by
      refine forall_mem_of_getD _ (fun n => n ≠ 0) ?_
      intro j hj
      rw [hlen] at hj
      rw [hsizes j hj]
      have h1 : j * s.K < s.order_ids.length := ceil_mul_lt _ _ j hK (hB ▸ hj)
      omega
    intro b hb hnil
    exact hpos b (hrb ▸ hb) (by rw [hnil]; rfl)

/-- Witness for C10 at the example instance with the constant random
stream: two batches are returned and the first has size exactly `K`. -/
theorem claim_C10_witness :
    (exampleSolver.random_batches (fun _ => 0)).length = exampleSolver.B
    ∧ ((exampleSolver.random_batches (fun _ => 0)).getD 0 []).length
        = exampleSolver.K := by
  have h := claim_C10 exampleSolver (fun _ => 0) (by decide) (by decide)
  exact ⟨h.1, h.2.1 0 (by decide)⟩

/-- C2 corrected: the capacity invariant (every batch of size at most `K`,
batch count `B = ceil(|orders|/K)`) holds for `random_batches`,
`greedy_batches` and the MIP extraction; for the two exact-single-batch
greedy strategies every batch has size at most the hardcoded 14 — which
bounds `K` only when `K ≥ 14` — and the batch count equals `B` whenever the
strategy completes (always for the unseeded variant, and for `K = 14` for
the seeded one). -/
theorem claim_C2_amended :
    (∀ (s : Solver) (rs : Nat → Nat),
       (s.random_batches rs).length = s.B
         ∧ ∀ b ∈ s.random_batches rs, b.length ≤ s.K)
    ∧ (∀ (s : Solver), 1 ≤ s.K →
       s.B = (s.order_ids.length + s.K - 1) / s.K →
       s.greedy_batches.isOk = true
         ∧ ∀ bs, s.greedy_batches = .ok bs →
             bs.length = s.B ∧ ∀ b ∈ bs, b.length ≤ s.K)
    ∧ (∀ (s : Solver),
       s.greedy_optimal_single_batching.isOk = true
         ∧ ∀ bs, s.greedy_optimal_single_batching = .ok bs →
             bs.length = s.B ∧ (∀ b ∈ bs, b.length ≤ 14)
               ∧ (14 ≤ s.K → ∀ b ∈ bs, b.length ≤ s.K))
    ∧ (∀ (s : Solver), s.K = 14 →
       s.B = (s.order_ids.length + s.K - 1) / s.K →
       s.greedy_optimal_single_batching_with_seed.isOk = true
         ∧ ∀ bs, s.greedy_optimal_single_batching_with_seed = .ok bs →
             bs.length = s.B ∧ ∀ b ∈ bs, b.length ≤ s.K)
    ∧ (∀ (s : Solver) (x y : Nat → Nat → Bool) (d : Nat → Nat),
       MIP_feasible s x y d →
       (MIP_extract s x).length = s.B
         ∧ ∀ batch ∈ MIP_extract s x, batch.length ≤ s.K) := by
  refine ⟨?_, ?_, ?_, ?_, ?_⟩
  · intro s rs
    have hrb : s.random_batches rs = randomOuter s rs s.B 0 s.order_ids := rfl
    obtain ⟨hlen, hsizes, _, _, _⟩ := randomOuter_spec s rs s.B 0 s.order_ids
    rw [hrb]
    refine ⟨hlen, forall_mem_of_getD _ (fun n => n ≤ s.K) ?_⟩
    intro j hj
    rw [hlen] at hj
    rw [hsizes j hj]
    omega
  · intro s hK hB
    obtain ⟨bs, rest, hok, hlen, hsizes, hperm, hrest⟩ :=
      greedyOuter_spec s hK s.B
        (s.order_ids.insertionSort (fun a b => s.num_aisles b ≤ s.num_aisles a))
        (by
          intro j hj
          rw [(List.perm_insertionSort _ _).length_eq]
          exact ceil_mul_lt _ _ j hK (hB ▸ hj))
    have hgb : s.greedy_batches = greedyOuter s s.B
        (s.order_ids.insertionSort (fun a b => s.num_aisles b ≤ s.num_aisles a)) :=
      rfl
    constructor
    · rw [hgb, hok]; rfl
    · intro bs' heq
      rw [hgb, hok] at heq
      cases heq
      refine ⟨hlen, forall_mem_of_getD _ (fun n => n ≤ s.K) ?_⟩
      intro j hj
      rw [hlen] at hj
      rw [hsizes j hj]
      omega
  · intro s
    obtain ⟨bs, rest, hok, hlen, hsizes, hperm, hrest⟩ :=
      gosbLoop_spec s s.B s.order_ids
    have hg : s.greedy_optimal_single_batching = gosbLoop s s.B s.order_ids := rfl
    constructor
    · rw [hg, hok]; rfl
    · intro bs' heq
      rw [hg, hok] at heq
      cases heq
      have hb14 : ∀ b ∈ bs, b.length ≤ 14 := by
        refine forall_mem_of_getD _ (fun n => n ≤ 14) ?_
        intro j hj
        rw [hlen] at hj
        rw [hsizes j hj]
        omega
      exact ⟨hlen, hb14, fun hK14 b hb => le_trans (hb14 b hb) hK14⟩
  · intro s hK14 hB
    obtain ⟨bs, rest, hok, hlen, hsizes, hperm, hrest⟩ :=
      gosbSeedLoop_spec s s.B
        (s.order_ids.insertionSort (fun a b => s.num_aisles b ≤ s.num_aisles a))
        (by
          intro j hj
          rw [(List.perm_insertionSort _ _).length_eq]
          rw [hK14] at hB
          exact ceil_mul_lt s.order_ids.length 14 j (by omega) (hB ▸ hj))
    have hg : s.greedy_optimal_single_batching_with_seed = gosbSeedLoop s s.B
        (s.order_ids.insertionSort (fun a b => s.num_aisles b ≤ s.num_aisles a)) :=
      rfl
    constructor
    · rw [hg, hok]; rfl
    · intro bs' heq
      rw [hg, hok] at heq
      cases heq
      refine ⟨hlen, forall_mem_of_getD _ (fun n => n ≤ s.K) ?_⟩
      intro j hj
      rw [hlen] at hj
      rw [hsizes j hj]
      omega
  · intro s x y d hfeas
    exact MIP_extract_sizes s x hfeas.1

/-- Counterexample for C2 as stated: on the two-order instance with `K = 1`
the exact-single-batch greedy returns a batch of size 2, exceeding `K`. -/
theorem claim_C2_counterexample :
    s2.greedy_optimal_single_batching = Except.ok [[1, 2], []]
    ∧ ¬ (([1, 2] : List Nat).length ≤ s2.K) :=
  ⟨by rfl, by decide⟩

/-- Witness for C2 at concrete instances: batch counts equal `B` for the
random and single-batch strategies, `greedy_batches` completes, the seeded
variant completes for `K = 14`, and a feasible MIP assignment extracts `B`
batches. -/
theorem claim_C2_witness :
    (exampleSolver.random_batches (fun _ => 0)).length = exampleSolver.B
    ∧ exampleSolver.greedy_batches.isOk = true
    ∧ ([[1, 2], []] : List (List Nat)).length = s2.B
    ∧ exampleSolver14.greedy_optimal_single_batching_with_seed.isOk = true
    ∧ (MIP_extract exampleSolver14 (fun _ b => decide (b = 0))).length
        = exampleSolver14.B := by
  refine ⟨(claim_C2_amended.1 exampleSolver (fun _ => 0)).1,
    (claim_C2_amended.2.1 exampleSolver (by decide) (by decide)).1,
    ((claim_C2_amended.2.2.1 s2).2 [[1, 2], []] (by rfl)).1,
    (claim_C2_amended.2.2.2.1 exampleSolver14 (by decide) (by decide)).1,
    (claim_C2_amended.2.2.2.2 exampleSolver14 (fun _ b => decide (b = 0))
      (fun _ _ => true) (fun _ => 3) (by decide)).1⟩

/-- C1 corrected: the partition invariant (the output batches contain the
input order ids exactly once each) holds for `random_batches`,
`greedy_batches` and any feasible MIP extraction for all `K ≥ 1`; for
`greedy_optimal_single_batching` it holds whenever `K ≤ 14` (the hardcoded
subproblem size), and for the seeded variant when `K = 14`; for `K > 14`
orders can be left unassigned. -/
theorem claim_C1_amended :
    (∀ (s : Solver) (rs : Nat → Nat), 1 ≤ s.K →
       s.B = (s.order_ids.length + s.K - 1) / s.K →
       (s.random_batches rs).flatten.Perm s.order_ids)
    ∧ (∀ (s : Solver), 1 ≤ s.K →
       s.B = (s.order_ids.length + s.K - 1) / s.K →
       s.greedy_batches.isOk = true
         ∧ ∀ bs, s.greedy_batches = .ok bs → bs.flatten.Perm s.order_ids)
    ∧ (∀ (s : Solver), 1 ≤ s.K → s.K ≤ 14 →
       s.B = (s.order_ids.length + s.K - 1) / s.K →
       ∀ bs, s.greedy_optimal_single_batching = .ok bs →
         bs.flatten.Perm s.order_ids)
    ∧ (∀ (s : Solver), s.K = 14 →
       s.B = (s.order_ids.length + s.K - 1) / s.K →
       s.greedy_optimal_single_batching_with_seed.isOk = true
         ∧ ∀ bs, s.greedy_optimal_single_batching_with_seed = .ok bs →
             bs.flatten.Perm s.order_ids)
    ∧ (∀ (s : Solver) (x y : Nat → Nat → Bool) (d : Nat → Nat),
       s.order_ids.Nodup → MIP_feasible s x y d →
       (MIP_extract s x).flatten.Perm s.order_ids) := by
  refine ⟨?_, ?_, ?_, ?_, ?_⟩
  · intro s rs hK hB
    have hrb : s.random_batches rs = randomOuter s rs s.B 0 s.order_ids := rfl
    obtain ⟨hlen, hsizes, rest, hperm, hrest⟩ :=
      randomOuter_spec s rs s.B 0 s.order_ids
    have hle : s.order_ids.length ≤ s.B * s.K := by
      have := le_ceil_mul s.order_ids.length s.K hK
      rw [hB]
      exact this
    have hrest0 : rest = [] := by
      rw [← List.length_eq_zero]
      omega
    rw [hrest0] at hperm
    rw [hrb]
    simpa using hperm
  · intro s hK hB
    obtain ⟨bs, rest, hok, hlen, hsizes, hperm, hrest⟩ :=
      greedyOuter_spec s hK s.B
        (s.order_ids.insertionSort (fun a b => s.num_aisles b ≤ s.num_aisles a))
        (by
          intro j hj
          rw [(List.perm_insertionSort _ _).length_eq]
          exact ceil_mul_lt _ _ j hK (hB ▸ hj))
    have hgb : s.greedy_batches = greedyOuter s s.B
        (s.order_ids.insertionSort (fun a b => s.num_aisles b ≤ s.num_aisles a)) :=
      rfl
    have hslen : (s.order_ids.insertionSort
        (fun a b => s.num_aisles b ≤ s.num_aisles a)).length
        = s.order_ids.length := (List.perm_insertionSort _ _).length_eq
    constructor
    · rw [hgb, hok]; rfl
    · intro bs' heq
      rw [hgb, hok] at heq
      cases heq
      have hle : s.order_ids.length ≤ s.B * s.K := by
        have := le_ceil_mul s.order_ids.length s.K hK
        rw [hB]
        exact this
      have hrest0 : rest = [] := by
        rw [← List.length_eq_zero]
        omega
      rw [hrest0] at hperm
      have h1 : bs.flatten.Perm (s.order_ids.insertionSort
          (fun a b => s.num_aisles b ≤ s.num_aisles a)) := by
        simpa using hperm
      exact h1.trans (List.perm_insertionSort _ _)
  · intro s hK hK14 hB bs heq
    obtain ⟨bs0, rest, hok, hlen, hsizes, hperm, hrest⟩ :=
      gosbLoop_spec s s.B s.order_ids
    have hg : s.greedy_optimal_single_batching = gosbLoop s s.B s.order_ids := rfl
    rw [hg, hok] at heq
    cases heq
    have hle : s.order_ids.length ≤ s.B * 14 := by
      have h1 := le_ceil_mul s.order_ids.length s.K hK
      have h2 : s.B * s.K ≤ s.B * 14 := Nat.mul_le_mul_left s.B hK14
      rw [hB]
      rw [hB] at h2
      omega
    have hrest0 : rest = [] := by
      rw [← List.length_eq_zero]
      omega
    rw [hrest0] at hperm
    simpa using hperm
  · intro s hK14 hB
    obtain ⟨bs, rest, hok, hlen, hsizes, hperm, hrest⟩ :=
      gosbSeedLoop_spec s s.B
        (s.order_ids.insertionSort (fun a b => s.num_aisles b ≤ s.num_aisles a))
        (by
          intro j hj
          rw [(List.perm_insertionSort _ _).length_eq]
          rw [hK14] at hB
          exact ceil_mul_lt s.order_ids.length 14 j (by omega) (hB ▸ hj))
    have hg : s.greedy_optimal_single_batching_with_seed = gosbSeedLoop s s.B
        (s.order_ids.insertionSort (fun a b => s.num_aisles b ≤ s.num_aisles a)) :=
      rfl
    have hslen : (s.order_ids.insertionSort
        (fun a b => s.num_aisles b ≤ s.num_aisles a)).length
        = s.order_ids.length := (List.perm_insertionSort _ _).length_eq
    constructor
    · rw [hg, hok]; rfl
    · intro bs' heq
      rw [hg, hok] at heq
      cases heq
      have hle : s.order_ids.length ≤ s.B * 14 := by
        have h1 := le_ceil_mul s.order_ids.length 14 (by omega)
        rw [hK14] at hB
        rw [hB]
        exact h1
      have hrest0 : rest = [] := by
        rw [← List.length_eq_zero]
        omega
      rw [hrest0] at hperm
      have h1 : bs.flatten.Perm (s.order_ids.insertionSort
          (fun a b => s.num_aisles b ≤ s.num_aisles a)) := by
        simpa using hperm
      exact h1.trans (List.perm_insertionSort _ _)
  · intro s x y d hnodup hfeas
    exact MIP_extract_flatten_perm s x hnodup hfeas.2.1

set_option maxRecDepth 4000 in
/-- Counterexample for C1 as stated: with 15 orders in 15 distinct aisles
and `K = 15` (so `B = 1`), `greedy_optimal_single_batching` requests only
`min(14, 15) = 14` orders and leaves order 15 unassigned, so the output is
not a partition of the order ids. -/
theorem claim_C1_counterexample :
    s15.greedy_optimal_single_batching
        = Except.ok [[1, 2, 3, 4, 5, 6, 7, 8, 9, 10, 11, 12, 13, 14]]
    ∧ ¬ (([[1, 2, 3, 4, 5, 6, 7, 8, 9, 10, 11, 12, 13, 14]] :
          List (List Nat)).flatten.Perm s15.order_ids) :=
  ⟨by rfl, by decide⟩

/-- Witness for C1 at concrete instances: the partition property holds for
the random strategy, the overlap-greedy output, the unseeded single-batch
output at `K = 1`, the seeded variant completes at `K = 14`, and a feasible
MIP assignment extracts a partition. -/
theorem claim_C1_witness :
    (exampleSolver.random_batches (fun _ => 0)).flatten.Perm exampleSolver.order_ids
    ∧ ([[1, 2], [3]] : List (List Nat)).flatten.Perm exampleSolver.order_ids
    ∧ ([[1, 2], []] : List (List Nat)).flatten.Perm s2.order_ids
    ∧ exampleSolver14.greedy_optimal_single_batching_with_seed.isOk = true
    ∧ (MIP_extract exampleSolver14 (fun _ b => decide (b = 0))).flatten.Perm
        exampleSolver14.order_ids := by
  refine ⟨claim_C1_amended.1 exampleSolver (fun _ => 0) (by decide) (by decide),
    (claim_C1_amended.2.1 exampleSolver (by decide) (by decide)).2
      [[1, 2], [3]] (by rfl),
    claim_C1_amended.2.2.1 s2 (by decide) (by decide) (by decide)
      [[1, 2], []] (by rfl),
    (claim_C1_amended.2.2.2.1 exampleSolver14 (by decide) (by decide)).1,
    claim_C1_amended.2.2.2.2 exampleSolver14 (fun _ b => decide (b = 0))
      (fun _ _ => true) (fun _ => 3) (by decide) (by decide)⟩
